import Mathlib

/-!
Verification development for the mcp-filesystem-server repository
(src/index.ts). The server exposes filesystem tools (read, write, move,
copy, search, archive, trash, backup) guarded by a path sandbox
(validatePath) restricting every operation to a set of allowed root
directories fixed at startup.

The embedding below translates the relevant parts of src/index.ts into
Lean. Strings model JavaScript strings (ASCII paths in all concrete
scenarios); the posix flavour of the Node path module is modelled
segment-wise over character lists; the filesystem is a tree of
directories, regular files and symbolic links, and every fs primitive
used by the source (realpath, rename, copyFile, rm, readdir, the
write performed by archive extraction) is given explicit semantics.
All definitions are structurally recursive so concrete runs reduce
inside the kernel.
-/

/-! ### JavaScript string primitives -/

/-- Lower-case an ASCII character; models what String.prototype.toLowerCase
does on the ASCII range (all paths in the concrete scenarios are ASCII). -/
def charLower (c : Char) : Char :=
  if 65 ≤ c.toNat ∧ c.toNat ≤ 90 then Char.ofNat (c.toNat + 32) else c

/-- Models String.prototype.toLowerCase (ASCII range). -/
def strLower (s : String) : String :=
  String.mk (s.data.map charLower)

/-- Character-list version of String.prototype.startsWith. -/
def listIsPre : List Char → List Char → Bool
  | [], _ => true
  | _ :: _, [] => false
  | a :: as, b :: bs => if a = b then listIsPre as bs else false

/-- Models String.prototype.startsWith: strStartsWith s pre is true when
pre is a character-wise initial segment of s. -/
def strStartsWith (s pre : String) : Bool :=
  listIsPre pre.data s.data

/-- Models String.prototype.includes (substring containment). -/
def containsSub (sub : List Char) : List Char → Bool
  | [] => sub.isEmpty
  | c :: cs => listIsPre sub (c :: cs) || containsSub sub cs

/-- String wrapper of containsSub, models s.includes(sub). -/
def strIncludes (s sub : String) : Bool :=
  containsSub sub.data s.data

/-- Models Array.prototype.join with a separator string. -/
def strIntercalate (sep : String) : List String → String
  | [] => ""
  | [s] => s
  | s :: rest => s ++ sep ++ strIntercalate sep rest

/-- Models String.prototype.slice(1) on ASCII strings. -/
def strDropOne (s : String) : String :=
  String.mk (s.data.drop 1)

/-! ### Node posix path semantics

path.normalize, path.resolve, path.join, path.dirname and path.basename
as used by src/index.ts. Every call site in the source applies them to
absolute separator-normalized strings (path.resolve output or realpath
output), so the embedding works on the absolute posix form throughout. -/

/-- Split a character list at every slash character. -/
def splitSlash : List Char → List (List Char)
  | [] => [[]]
  | c :: cs =>
    if c = '/' then [] :: splitSlash cs
    else
      match splitSlash cs with
      | [] => [[c]]
      | s :: rest => (c :: s) :: rest

/-- Non-empty path segments of a string (separator-split, empties dropped). -/
def splitSegs (p : String) : List String :=
  ((splitSlash p.data).filter (fun s => s ≠ [])).map String.mk

/-- Stack pass of path normalization: drops empty and dot segments, a
dot-dot segment removes the previously kept segment (or is dropped at the
root, as path.normalize does for absolute paths). -/
def normStack (acc : List String) : List String → List String
  | [] => acc
  | s :: rest =>
    if s = "" ∨ s = "." then normStack acc rest
    else if s = ".." then normStack acc.tail rest
    else normStack (s :: acc) rest

/-- Normalized segment list of a path. -/
def normalizeSegs (l : List String) : List String :=
  (normStack [] l).reverse

/-- Rebuild an absolute path string from segments; the empty list is the
filesystem root. -/
def pathOfSegs (segs : List String) : String :=
  "/" ++ strIntercalate "/" segs

/-- Models path.normalize on an absolute posix path (every call site in
the source passes absolute strings; trailing separators never occur there
because the inputs come from path.resolve or realpath). -/
def normalizeAbs (p : String) : String :=
  pathOfSegs (normalizeSegs (splitSegs p))

/-- Models path.isAbsolute (posix). -/
def isAbsolutePath (p : String) : Bool :=
  strStartsWith p "/"

/-- Models path.join of an absolute left part with a right part. -/
def pathJoin (a b : String) : String :=
  normalizeAbs (a ++ "/" ++ b)

/-- Models path.dirname on an absolute normalized path. -/
def dirname (p : String) : String :=
  pathOfSegs ((normalizeSegs (splitSegs p)).dropLast)

/-- Models path.basename on an absolute path. -/
def basename (p : String) : String :=
  ((splitSegs p).getLast?).getD ""

/-! ### The source functions normalizePath and expandHome (src/index.ts
lines 25-34) and the startup configuration (lines 17-57). -/

/-- Source: function normalizePath(p) is path.normalize(p).toLowerCase(). -/
def normalizePath (p : String) : String :=
  strLower (normalizeAbs p)

/-- Source: function expandHome(filepath); the process home directory is
part of the configuration. -/
def expandHome (home filepath : String) : String :=
  if strStartsWith filepath "~/" ∨ filepath = "~" then
    pathJoin home (strDropOne filepath)
  else filepath

/-- Process-wide configuration established at startup: the home
directory (os.homedir()), the server working directory (process.cwd())
and the command-line directory arguments. -/
structure Config where
  home : String
  cwd : String
  args : List String

/-- Models path.resolve of one argument after home expansion: an
absolute input is normalized, a relative one is resolved against the
server working directory (src/index.ts lines 61-64 and 38). -/
def resolvePath (cfg : Config) (p : String) : String :=
  let e := expandHome cfg.home p
  if isAbsolutePath e then normalizeAbs e
  else normalizeAbs (cfg.cwd ++ "/" ++ e)

/-- Source lines 37-39: the allowed directories, stored in normalized
(lower-cased) form. -/
def allowedDirectories (cfg : Config) : List String :=
  cfg.args.map (fun dir => normalizePath (resolvePath cfg dir))

/-- Source line 56: the trash directory is the fixed .trash subdirectory
of the first allowed directory. -/
def trashDirOf (cfg : Config) : String :=
  pathJoin ((allowedDirectories cfg).headD "") ".trash"

/-! ### Filesystem model

A tree of directories, regular files and symbolic links. Regular file
contents are either text or a zip archive (a list of entry-name/entry-text
pairs), so that the archive tools can be modelled. A directory carries a
readable flag: fs.readdir throws on an unreadable directory while path
traversal through it still works (read permission versus execute
permission on posix directories). -/

/-- Contents of a regular file. -/
inductive FData where
  | text (s : String)
  | zip (entries : List (String × String))
deriving DecidableEq

/-- A filesystem object. -/
inductive FsTree where
  | file (data : FData)
  | symlink (target : String)
  | dir (readable : Bool) (children : List (String × FsTree))

/-- First child of a directory entry list with the given name. -/
def lookupChild (cs : List (String × FsTree)) (n : String) : Option FsTree :=
  match cs with
  | [] => none
  | e :: rest => if e.1 = n then some e.2 else lookupChild rest n

/-- Replace the first child with the given name, or append a new one. -/
def setChild (cs : List (String × FsTree)) (n : String) (v : FsTree) : List (String × FsTree) :=
  match cs with
  | [] => [(n, v)]
  | e :: rest => if e.1 = n then (n, v) :: rest else e :: setChild rest n v

/-- Remove every child with the given name. -/
def dropChild (cs : List (String × FsTree)) (n : String) : List (String × FsTree) :=
  cs.filter (fun e => decide (e.1 ≠ n))

/-- Apply a function to the children with the given name. -/
def mapChild (cs : List (String × FsTree)) (n : String) (f : FsTree → FsTree) : List (String × FsTree) :=
  cs.map (fun e => if e.1 = n then (e.1, f e.2) else e)

/-- Look up the object at a segment path (no symlink resolution). -/
def treeGet : List String → FsTree → Option FsTree
  | [], t => some t
  | n :: rest, .dir _ cs =>
    match lookupChild cs n with
    | some c => treeGet rest c
    | none => none
  | _ :: _, .file _ => none
  | _ :: _, .symlink _ => none

/-- Replace the object at a segment path, creating the final entry in an
existing parent directory when absent; fails when an intermediate
directory is missing. -/
def treeSet : List String → FsTree → FsTree → Option FsTree
  | [], nw, _ => some nw
  | [n], nw, .dir r cs => some (.dir r (setChild cs n nw))
  | n :: m :: rest, nw, .dir r cs =>
    match lookupChild cs n with
    | some c => (treeSet (m :: rest) nw c).map (fun c2 => FsTree.dir r (setChild cs n c2))
    | none => none
  | _ :: _, _, .file _ => none
  | _ :: _, _, .symlink _ => none

/-- Remove the object at a segment path if present (fs.rm with force and
recursive: no error when the path is missing, whole subtrees removed). -/
def treeRemove : List String → FsTree → FsTree
  | [], t => t
  | [n], .dir r cs => .dir r (dropChild cs n)
  | n :: m :: rest, .dir r cs => .dir r (mapChild cs n (treeRemove (m :: rest)))
  | _ :: _, t => t

/-- Write file data at a segment path, creating missing intermediate
directories (extraction creates directories recursively). -/
def writeFileP : List String → FData → FsTree → FsTree
  | [], _, t => t
  | [n], d, .dir r cs => .dir r (setChild cs n (.file d))
  | n :: m :: rest, d, .dir r cs =>
    .dir r (setChild cs n (writeFileP (m :: rest) d ((lookupChild cs n).getD (.dir true []))))
  | _ :: _, _, t => t

/-- Text or archive content of the regular file at a path. -/
def fsRead (p : String) (fs : FsTree) : Option FData :=
  match treeGet (splitSegs p) fs with
  | some (.file d) => some d
  | _ => none

/-- Models fs.rename: the object at src is moved to dst, replacing any
existing file there (posix rename semantics); fails when src is missing
or an intermediate directory of dst is missing. -/
def fsRename (fs : FsTree) (src dst : String) : Option FsTree :=
  match treeGet (splitSegs src) fs with
  | none => none
  | some node => treeSet (splitSegs dst) node (treeRemove (splitSegs src) fs)

/-- Models fs.copyFile without flags: copies a regular file, silently
replacing an existing destination file (Node default); fails when the
source is not a regular file or the destination parent is missing. -/
def fsCopy (fs : FsTree) (src dst : String) : Option FsTree :=
  match treeGet (splitSegs src) fs with
  | some (.file d) => treeSet (splitSegs dst) (.file d) fs
  | _ => none

/-- Models fs.readdir with withFileTypes: entry names paired with the
Dirent isDirectory flag (false for symlinks, as Dirent does not follow
links); throws (none) when the path is not a readable directory. -/
def readdirT (fs : FsTree) (p : String) : Option (List (String × Bool)) :=
  match treeGet (splitSegs p) fs with
  | some (.dir true cs) =>
    some (cs.map (fun e => (e.1, match e.2 with | .dir _ _ => true | _ => false)))
  | _ => none

/-- Models fs.readdir without options: entry names only. -/
def readdirNames (fs : FsTree) (p : String) : Option (List String) :=
  match treeGet (splitSegs p) fs with
  | some (.dir true cs) => some (cs.map (fun e => e.1))
  | _ => none

/-- One fuelled pass of symlink resolution: done is the already resolved
real prefix, the remaining segments are looked up one by one; a symlink
component restarts the walk from the root on the normalized combination
of its target (resolved against the directory holding the link) with the
remaining segments. A dot-dot inside a link target is collapsed
lexically against the already fully resolved prefix, which matches the
physical resolution because that prefix contains no symlink components;
none models an fs.realpath rejection (missing component or exhausted
fuel). -/
def realpathGo (fs : FsTree) : Nat → List String → List String → Option (List String)
  | 0, _, _ => none
  | _ + 1, done, [] => some done
  | fuel + 1, done, s :: rest =>
    match treeGet (done ++ [s]) fs with
    | none => none
    | some (.symlink target) =>
      let combined :=
        if isAbsolutePath target then target else pathOfSegs done ++ "/" ++ target
      realpathGo fs fuel [] (normalizeSegs (splitSegs combined) ++ rest)
    | some _ => realpathGo fs fuel (done ++ [s]) rest

/-- Models fs.realpath on an absolute path (validatePath always passes
the path.resolve output). The fixed fuel bounds symlink chains the way
the ELOOP limit does; it is far above anything the scenarios need. -/
def realpathS (fs : FsTree) (p : String) : Option String :=
  (realpathGo fs 100 [] (normalizeSegs (splitSegs p))).map pathOfSegs

/-! ### The path sandbox: validatePath (src/index.ts lines 60-98)

The source authorizes in three stages: a lexical membership check of the
normalized absolute path against the allowed directories (throwing the
access-denied error when it fails), then fs.realpath inside a try block
whose catch falls back to checking the real path of the parent
directory. Two control-flow facts of the source are preserved exactly by
this embedding because several claims turn on them:

* the throw raised when the resolved real path escapes the allowed
  directories (line 80) is raised inside that same try block, so its own
  catch (line 83) intercepts it and proceeds to the parent-directory
  fallback instead of propagating the denial;
* the throw raised when the resolved parent escapes the allowed
  directories (line 91) is raised inside the inner try block, so the
  inner catch (line 94) intercepts it and replaces it with the
  parent-missing error message.

To express that authorization is read-only (claim C9) the embedding is
written in state-passing style: every fs primitive takes and returns the
filesystem, and validatePathM returns the final filesystem next to the
result. -/

/-- State-passing wrapper of fs.realpath. -/
def realpathM (p : String) (fs : FsTree) : FsTree × Option String :=
  (fs, realpathS fs p)

/-- The parent-directory fallback of validatePath (source lines 84-96),
reached when fs.realpath rejected the path or when the symlink-target
denial was caught. The denial raised for a parent outside the allowed
directories is replaced by the parent-missing message, mirroring the
inner catch of the source. -/
def parentCheckM (cfg : Config) (absolute : String) (fs : FsTree) :
    FsTree × Except String String :=
  let parentDir := dirname absolute
  match realpathM parentDir fs with
  | (fs1, some realParentPath) =>
    if (allowedDirectories cfg).any
        (fun dir => strStartsWith (normalizePath realParentPath) dir) then
      (fs1, .ok absolute)
    else
      (fs1, .error ("Parent directory does not exist: " ++ parentDir))
  | (fs1, none) => (fs1, .error ("Parent directory does not exist: " ++ parentDir))

/-- Source: async function validatePath(requestedPath), in state-passing
style. -/
def validatePathM (cfg : Config) (requestedPath : String) (fs : FsTree) :
    FsTree × Except String String :=
  let absolute := resolvePath cfg requestedPath
  let normalizedRequested := normalizePath absolute
  if (allowedDirectories cfg).any (fun dir => strStartsWith normalizedRequested dir) then
    match realpathM absolute fs with
    | (fs1, some realPath) =>
      if (allowedDirectories cfg).any
          (fun dir => strStartsWith (normalizePath realPath) dir) then
        (fs1, .ok realPath)
      else
        parentCheckM cfg absolute fs1
    | (fs1, none) => parentCheckM cfg absolute fs1
  else
    (fs, .error ("Access denied - path outside allowed directories: " ++ absolute ++
      " not in " ++ strIntercalate ", " (allowedDirectories cfg)))

/-- Result component of validatePath. -/
def validatePath (cfg : Config) (fs : FsTree) (requestedPath : String) :
    Except String String :=
  (validatePathM cfg requestedPath fs).2

/-! ### Tool handlers and lifecycle utilities

Each handler is the body of the corresponding case of the request switch
(src/index.ts lines 352-584) after argument parsing, taking the
filesystem explicitly and returning the typed failure (the thrown error
message) or the success state. The clock value new Date().toISOString()
is passed in as the ts parameter. Where a handler only renders a fixed
text around a computed path, the model returns the computed path (the
datum the claims are about); emptyTrashH keeps its two user-facing
messages verbatim because the confirmation claim is about them. -/

/-- Source lines 228-233 inside backupFile: the timestamp with every
colon and dot character replaced by a dash, i.e. the regex replace
[:.] to dash applied globally. -/
def sanitizeTimestamp (ts : String) : String :=
  String.mk (ts.data.map (fun c => if c = ':' ∨ c = '.' then '-' else c))

/-- Source lines 419-428, move_file: validate both arguments, then
fs.rename. -/
def moveFileH (cfg : Config) (fs : FsTree) (source destination : String) :
    Except String FsTree :=
  match validatePath cfg fs source with
  | .error e => .error e
  | .ok validSourcePath =>
    match validatePath cfg fs destination with
    | .error e => .error e
    | .ok validDestPath =>
      match fsRename fs validSourcePath validDestPath with
      | some fs1 => .ok fs1
      | none => .error "ENOENT: rename failed"

/-- Source lines 454-463, copy_file: validate both arguments, then
fs.copyFile. -/
def copyFileH (cfg : Config) (fs : FsTree) (source destination : String) :
    Except String FsTree :=
  match validatePath cfg fs source with
  | .error e => .error e
  | .ok validSourcePath =>
    match validatePath cfg fs destination with
    | .error e => .error e
    | .ok validDestPath =>
      match fsCopy fs validSourcePath validDestPath with
      | some fs1 => .ok fs1
      | none => .error "ENOENT: copyFile failed"

/-- Source lines 465-477 with the utility backupFile (lines 227-236):
validate source and destination directory, compute
destinationDir/(basename.timestamp.backup), fs.copyFile to it; the
utility returns the backup path. -/
def backupFileH (cfg : Config) (ts : String) (fs : FsTree)
    (source destinationDir : String) : Except String (FsTree × String) :=
  match validatePath cfg fs source with
  | .error e => .error e
  | .ok validSourcePath =>
    match validatePath cfg fs destinationDir with
    | .error e => .error e
    | .ok validDestDir =>
      let backupPath :=
        pathJoin validDestDir (basename validSourcePath ++ "." ++ sanitizeTimestamp ts ++ ".backup")
      match fsCopy fs validSourcePath backupPath with
      | some fs1 => .ok (fs1, backupPath)
      | none => .error "ENOENT: copyFile failed"

/-- Source lines 479-490, move_to_trash: validate the path, build
trashDir/(basename.timestamp), fs.rename to it; returns the trash
location the handler reports. -/
def moveToTrashH (cfg : Config) (ts : String) (fs : FsTree) (p : String) :
    Except String (FsTree × String) :=
  match validatePath cfg fs p with
  | .error e => .error e
  | .ok validPath =>
    let trashPath :=
      pathJoin (trashDirOf cfg) (basename validPath ++ "." ++ sanitizeTimestamp ts)
    match fsRename fs validPath trashPath with
    | some fs1 => .ok (fs1, trashPath)
    | none => .error "ENOENT: rename failed"

/-- Source lines 492-505, empty_trash: a falsy confirm flag returns the
confirmation prompt without touching the filesystem; a true flag reads
the trash directory and removes every entry with fs.rm force recursive
(the concurrent Promise.all over distinct entries is linearized as a
fold). -/
def emptyTrashH (cfg : Config) (fs : FsTree) (confirm : Option Bool) :
    Except String (FsTree × String) :=
  if confirm.getD false = false then
    .ok (fs, "Please confirm emptying trash by setting confirm: true")
  else
    match readdirNames fs (trashDirOf cfg) with
    | none => .error "ENOENT: readdir failed"
    | some entries =>
      .ok (entries.foldl (fun f entry => treeRemove (splitSegs (pathJoin (trashDirOf cfg) entry)) f) fs,
        "Successfully emptied trash directory")

/-- Source lines 507-516, restore_file: validate trashDir/path and the
raw path argument, then fs.rename between the two results; returns the
restore location together with the new state. -/
def restoreFileH (cfg : Config) (fs : FsTree) (p : String) :
    Except String (FsTree × String) :=
  match validatePath cfg fs (pathJoin (trashDirOf cfg) p) with
  | .error e => .error e
  | .ok trashPath =>
    match validatePath cfg fs p with
    | .error e => .error e
    | .ok originalPath =>
      match fsRename fs trashPath originalPath with
      | some fs1 => .ok (fs1, originalPath)
      | none => .error "ENOENT: rename failed"

/-- Source lines 563-572, restore_from_backup: validate both arguments,
then fs.copyFile backup to destination. -/
def restoreFromBackupH (cfg : Config) (fs : FsTree) (backupPath destination : String) :
    Except String FsTree :=
  match validatePath cfg fs backupPath with
  | .error e => .error e
  | .ok validBackupPath =>
    match validatePath cfg fs destination with
    | .error e => .error e
    | .ok validDestPath =>
      match fsCopy fs validBackupPath validDestPath with
      | some fs1 => .ok fs1
      | none => .error "ENOENT: copyFile failed"

/-- AdmZip applies canonical() to every entry name before writing it:
the zip-slip fix shipped since adm-zip 0.5.2 and present in the
declared dependency version. The entry name is normalized as a posix
path hung off a virtual root, which collapses dot segments and drops
leading dot-dot segments, and the result is re-rooted as a relative
path; in segment terms that is exactly the absolute normalization of
the split name. Backslash separators and directory entries do not occur
in the scenarios here. -/
def canonicalEntryName (name : String) : List String :=
  normalizeSegs (splitSegs name)

/-- AdmZip#extractAllTo is third-party dependency code, not part of this
repository: per entry it computes sanitize(destination,
canonical(entryName)) and writes there, creating intermediate
directories. Because canonical() has already removed every dot-dot
segment, the sanitize() substring check is satisfied by its first
candidate, path.normalize(path.join(destination, canonicalName)), so
extraction writes every entry at that target and never rejects one. The
repository handler performs no per-entry sandbox validation around any
of this, which is what claim C1 is about. -/
def extractAllEntries (dst : String) (entries : List (String × String)) (fs : FsTree) : FsTree :=
  entries.foldl (fun f e =>
    writeFileP (normalizeSegs (splitSegs dst ++ canonicalEntryName e.1)) (.text e.2) f) fs

/-- Source lines 535-549, unzip_file: validate the archive path and the
destination, open the archive (failing on a missing or non-zip source)
and extract all entries; validatePath is applied to nothing else. All
errors are wrapped in the failed-to-unzip prefix by the try block. -/
def unzipFileH (cfg : Config) (fs : FsTree) (source destination : String) :
    Except String (FsTree × String) :=
  match validatePath cfg fs source with
  | .error e => .error ("Failed to unzip file: " ++ e)
  | .ok validSourcePath =>
    match validatePath cfg fs destination with
    | .error e => .error ("Failed to unzip file: " ++ e)
    | .ok validDestPath =>
      match treeGet (splitSegs validSourcePath) fs with
      | some (.file (.zip entries)) =>
        .ok (extractAllEntries validDestPath entries fs,
          "Successfully extracted zip file to " ++ destination)
      | _ => .error "Failed to unzip file: invalid or missing archive"

/-! ### search_files (src/index.ts lines 199-224 and 430-438)

The inner async function search reads a directory and, for every entry,
validates the joined path, records it when its name contains the pattern
case-insensitively, and recurses into subdirectories; any throw from the
per-entry body (validation failure or a failed recursive readdir) is
caught and the loop continues. A recursive invocation can only throw
from its initial readdir, before it records anything, so a failed
descent contributes no results; the all-or-nothing Option return models
exactly that. The fuel only bounds recursion depth; every concrete run
uses more fuel than its directory depth needs. -/

/-- A pending unit of the search: visiting a directory, or processing
the remaining entries of one. -/
inductive STask where
  | visit (path : String)
  | ents (current : String) (entries : List (String × Bool))

/-- The recursive search. none models a throw escaping the current
invocation (only its initial readdir, or exhausted fuel). For an entry,
the recorded hit (when the name contains the pattern) and the results of
descending into a directory entry are collected in front of the results
of the remaining entries, exactly in the push order of the source; a
caught throw (failed validation: no hit, no descent; failed descent:
getD keeps the hit already pushed) skips only what the source skips. -/
def searchF (cfg : Config) (fs : FsTree) (pattern : String) : Nat → STask → Option (List String)
  | 0, _ => none
  | fuel + 1, .visit current =>
    match readdirT fs current with
    | none => none
    | some entries => searchF cfg fs pattern fuel (.ents current entries)
  | _ + 1, .ents _ [] => some []
  | fuel + 1, .ents current ((name, isDir) :: rest) =>
    (searchF cfg fs pattern fuel (.ents current rest)).map (fun rs =>
      (match validatePath cfg fs (pathJoin current name) with
       | .error _ => []
       | .ok _ =>
         (if strIncludes (strLower name) (strLower pattern) then [pathJoin current name]
          else []) ++
           (if isDir then (searchF cfg fs pattern fuel (.visit (pathJoin current name))).getD []
            else [])) ++ rs)

/-- Source lines 430-438, the search_files handler: validate the root
argument, then run the recursive search from it; a throw from the root
readdir propagates to the caller as an error. -/
def searchFilesH (cfg : Config) (fs : FsTree) (p pattern : String) (fuel : Nat) :
    Except String (List String) :=
  match validatePath cfg fs p with
  | .error e => .error e
  | .ok validPath =>
    match searchF cfg fs pattern fuel (.visit validPath) with
    | some results => .ok results
    | none => .error "ENOENT: readdir failed"

/-! ### Spec-side definitions

These two definitions follow the words of the specification, not the
source, and exist to be compared against the source-derived definitions
above: membership as prefix match on full path segments, and the
trash/backup timestamp convention. -/

/-- Segment-list version of listIsPre. -/
def listIsPreS : List String → List String → Bool
  | [], _ => true
  | _ :: _, [] => false
  | a :: as, b :: bs => if a = b then listIsPreS as bs else false

/-- Modelled from the spec: the membership check described in section
4.1 step 4, a prefix match on full path segments, under which a root
/a/b does not match /a/bc. -/
def isUnderRootSeg (root p : String) : Bool :=
  listIsPreS (splitSegs root) (splitSegs p)

/-- Modelled from the spec: the naming-convention timestamp, the
ISO-8601 string with every colon and every dot replaced by a dash
(section 6). -/
def specTimestampSan : List Char → List Char
  | [] => []
  | c :: cs => (if c = ':' then '-' else if c = '.' then '-' else c) :: specTimestampSan cs

/-! ### Concrete scenarios

One configuration and filesystem per claim that is settled on a concrete
input. All paths are lower-case ASCII, so case-folding is inert and the
scenarios isolate the behaviour under test. -/

/-- Configuration with the single allowed root /sandbox. -/
def cfgSandbox : Config := { home := "/home/u", cwd := "/sandbox", args := ["/sandbox"] }

/-- Claim C1 scenario: /sandbox/a.zip is an archive whose single entry
name climbs out of the extraction destination with dot-dot sequences. -/
def fsC1 : FsTree :=
  .dir true [("sandbox", .dir true
    [("a.zip", .file (.zip [("../../etc/passwd", "pwn")]))])]

/-- Claim C2 scenario: a symlink directly inside the allowed root whose
target lies outside every allowed root. -/
def fsC2 : FsTree :=
  .dir true
    [("sandbox", .dir true [("link", .symlink "/outside/secret")]),
     ("outside", .dir true [("secret", .file (.text "top"))])]

/-- Claim C3 scenario: the allowed root is /a/b and /a/bc is a sibling
directory whose name extends the root as a string but not segment-wise. -/
def cfgC3 : Config := { home := "/home/u", cwd := "/", args := ["/a/b"] }

/-- Claim C3 filesystem: both /a/b and /a/bc exist; the probed file
lives under /a/bc. -/
def fsC3 : FsTree :=
  .dir true [("a", .dir true
    [("b", .dir true []),
     ("bc", .dir true [("f.txt", .file (.text "x"))])])]

/-- Claim C4 scenario: the parent of the requested new file is a symlink
resolving outside every allowed root, and the file itself does not
exist. -/
def fsC4 : FsTree :=
  .dir true
    [("sandbox", .dir true [("link", .symlink "/outside")]),
     ("outside", .dir true [])]

/-- Claim C5 scenario: source, an existing destination, and a backup
file, all regular files inside the allowed root. -/
def fsC5 : FsTree :=
  .dir true [("sandbox", .dir true
    [("src.txt", .file (.text "new")),
     ("dst.txt", .file (.text "old")),
     ("b.bak", .file (.text "bk"))])]

/-! ### Claims C1 to C5 -/

/-- Counterexample for claim C1 as stated: the claim says a traversal
entry is failed, or fails the whole operation, after per-entry
re-validation against the sandbox. Extracting an archive holding the
entry ../../etc/passwd into the allowed root /sandbox instead succeeds,
and the entry is silently written at /sandbox/etc/passwd, relocated
under the destination by the extraction library itself; nothing failed.
The last conjunct shows that sandbox validation of the entry name
joined to the destination is denied, so the observed success also rules
out any per-entry re-validation gating the write. -/
theorem unzip_traversal_entry_not_failed :
    (∃ fs1, unzipFileH cfgSandbox fsC1 "/sandbox/a.zip" "/sandbox" =
        .ok (fs1, "Successfully extracted zip file to /sandbox") ∧
      fsRead "/sandbox/etc/passwd" fs1 = some (.text "pwn")) ∧
    validatePath cfgSandbox fsC1 (pathJoin "/sandbox" "../../etc/passwd") =
      .error "Access denied - path outside allowed directories: /etc/passwd not in /sandbox" :=
  ⟨⟨_, rfl, rfl⟩, rfl⟩

/-- Claim C2: the claim states that a path naming a symlink inside an
allowed root whose target resolves outside all roots is rejected with
the access-denied failure. In the code the denial thrown for the
escaping real path is caught by the enclosing catch, which then accepts
the path because its parent directory resolves inside the root:
validatePath returns the symlink path as authorized even though its real
path /outside/secret is under no allowed directory. -/
theorem validatePath_symlink_escape_authorized :
    validatePath cfgSandbox fsC2 "/sandbox/link" = .ok "/sandbox/link" ∧
    realpathS fsC2 "/sandbox/link" = some "/outside/secret" ∧
    (allowedDirectories cfgSandbox).any
      (fun d => strStartsWith (normalizePath "/outside/secret") d) = false :=
  ⟨rfl, rfl, rfl⟩

/-- Claim C3: the claim states that root membership is a prefix match on
full path segments, so the root /a/b does not authorize /a/bc. The code
compares with String.prototype.startsWith on the normalized strings, a
plain substring check: /a/bc/f.txt is authorized by the root /a/b even
though it is not below it segment-wise. -/
theorem validatePath_substring_match_escapes :
    validatePath cfgC3 fsC3 "/a/bc/f.txt" = .ok "/a/bc/f.txt" ∧
    isUnderRootSeg "/a/b" "/a/bc/f.txt" = false :=
  ⟨rfl, rfl⟩

/-- Claim C4: the claim states that whenever validatePath finds the path
or its parent resolved form outside all allowed roots, the reported
failure is the access-denied one, never another kind. For a new file
whose parent directory is a symlink resolving to /outside, the code
throws its parent access-denied error inside the inner try, and the
inner catch replaces it with the parent-missing message: the caller sees
a parent-missing failure although the parent exists and was denied. -/
theorem validatePath_parent_denied_misreported :
    validatePath cfgSandbox fsC4 "/sandbox/link/new.txt" =
      .error "Parent directory does not exist: /sandbox/link" ∧
    realpathS fsC4 "/sandbox/link" = some "/outside" ∧
    (allowedDirectories cfgSandbox).any
      (fun d => strStartsWith (normalizePath "/outside") d) = false :=
  ⟨rfl, rfl, rfl⟩

/-- Claim C5: the claim (and the tool descriptions in the source) state
that move_file and copy_file fail on an existing destination and leave
it unchanged. fs.rename and flagless fs.copyFile replace an existing
destination file, so both handlers succeed and overwrite /sandbox/dst.txt;
the restore_from_backup half of the claim (overwriting restore) does
hold and is included last. -/
theorem move_copy_overwrite_existing_destination :
    (∃ fs1, moveFileH cfgSandbox fsC5 "/sandbox/src.txt" "/sandbox/dst.txt" = .ok fs1 ∧
      fsRead "/sandbox/dst.txt" fs1 = some (.text "new") ∧
      fsRead "/sandbox/src.txt" fs1 = none) ∧
    (∃ fs2, copyFileH cfgSandbox fsC5 "/sandbox/src.txt" "/sandbox/dst.txt" = .ok fs2 ∧
      fsRead "/sandbox/dst.txt" fs2 = some (.text "new")) ∧
    (∃ fs3, restoreFromBackupH cfgSandbox fsC5 "/sandbox/b.bak" "/sandbox/dst.txt" = .ok fs3 ∧
      fsRead "/sandbox/dst.txt" fs3 = some (.text "bk")) :=
  ⟨⟨_, rfl, rfl, rfl⟩, ⟨_, rfl, rfl⟩, ⟨_, rfl, rfl⟩⟩

/-! ### Claim C9: authorization never mutates the filesystem -/

/-- The parent fallback leaves the filesystem unchanged. -/
theorem parentCheckM_fst (cfg : Config) (a : String) (fs : FsTree) :
    (parentCheckM cfg a fs).1 = fs := by
  unfold parentCheckM realpathM
  dsimp only
  cases h : realpathS fs (dirname a)
  · rfl
  · dsimp only
    split <;> rfl

/-- Claim C9: validatePath only reads filesystem metadata; in the
state-passing embedding the filesystem component of its result is the
input filesystem, whatever the configuration, path and filesystem
state. -/
theorem validatePath_no_mutation (cfg : Config) (p : String) (fs : FsTree) :
    (validatePathM cfg p fs).1 = fs := by
  unfold validatePathM realpathM
  dsimp only
  split
  · cases h : realpathS fs (resolvePath cfg p)
    · exact parentCheckM_fst ..
    · dsimp only
      split
      · rfl
      · exact parentCheckM_fst ..
  · rfl

/-! ### Rename preserves content (towards claim C6) -/

/-- Looking up the name just written finds the written child. -/
theorem lookup_setChild (cs : List (String × FsTree)) (n : String) (v : FsTree) :
    lookupChild (setChild cs n v) n = some v := by
  induction cs with
  | nil => simp [setChild, lookupChild]
  | cons e rest ih =>
    by_cases h : e.1 = n
    · simp [setChild, lookupChild, h]
    · simp [setChild, lookupChild, h, ih]

/-- Reading back the path just replaced yields the new object. -/
theorem treeGet_treeSet_self (p : List String) :
    ∀ (nw t t2 : FsTree), treeSet p nw t = some t2 → treeGet p t2 = some nw := by
  induction p with
  | nil =>
    intro nw t t2 h
    simp [treeSet] at h
    subst h
    rfl
  | cons n rest ih =>
    intro nw t t2 h
    cases rest with
    | nil =>
      cases t with
      | file d => simp [treeSet] at h
      | symlink s => simp [treeSet] at h
      | dir r cs =>
        simp [treeSet] at h
        subst h
        simp [treeGet, lookup_setChild]
    | cons m rest2 =>
      cases t with
      | file d => simp [treeSet] at h
      | symlink s => simp [treeSet] at h
      | dir r cs =>
        simp only [treeSet] at h
        cases hl : lookupChild cs n with
        | none => rw [hl] at h; simp at h
        | some c =>
          rw [hl] at h
          rw [Option.map_eq_some'] at h
          obtain ⟨c2, hc2, rfl⟩ := h
          simp [treeGet, lookup_setChild]
          exact ih nw c c2 hc2

/-- A successful fs.rename makes reading the destination yield exactly
what reading the source yielded before. -/
theorem fsRename_read (fs fs2 : FsTree) (src dst : String)
    (h : fsRename fs src dst = some fs2) :
    fsRead dst fs2 = fsRead src fs := by
  unfold fsRename at h
  cases hg : treeGet (splitSegs src) fs with
  | none => rw [hg] at h; exact absurd h (by simp)
  | some node =>
    rw [hg] at h
    unfold fsRead
    rw [hg, treeGet_treeSet_self (splitSegs dst) node (treeRemove (splitSegs src) fs) fs2 h]

/-- Claim C6: moving a file to the trash and restoring it with the same
relative name (the trash entry name basename.timestamp) puts a file with
the original content at the restore location. The hypotheses state that
both operations succeed: the path validates to vp holding content c, the
trash move produces state fs1 with entry tp, validating the joined trash
path yields that same entry (no symlinks interfere along the trash
path), and the restore succeeds, placing its result at the validated
restore location rp. -/
theorem trash_restore_roundtrip (cfg : Config) (ts : String) (fs fs1 fs2 : FsTree)
    (p vp tp rp : String) (c : FData)
    (h1 : validatePath cfg fs p = .ok vp)
    (h2 : fsRead vp fs = some c)
    (h3 : moveToTrashH cfg ts fs p = .ok (fs1, tp))
    (h4 : validatePath cfg fs1
      (pathJoin (trashDirOf cfg) (basename vp ++ "." ++ sanitizeTimestamp ts)) = .ok tp)
    (h6 : validatePath cfg fs1 (basename vp ++ "." ++ sanitizeTimestamp ts) = .ok rp)
    (h5 : restoreFileH cfg fs1 (basename vp ++ "." ++ sanitizeTimestamp ts) = .ok (fs2, rp)) :
    fsRead rp fs2 = some c := by
  simp only [moveToTrashH, h1] at h3
  cases hr : fsRename fs vp
      (pathJoin (trashDirOf cfg) (basename vp ++ "." ++ sanitizeTimestamp ts)) with
  | none => rw [hr] at h3; exact absurd h3 (by simp)
  | some fsx =>
    rw [hr] at h3
    simp only [Except.ok.injEq, Prod.mk.injEq] at h3
    obtain ⟨hfs, htp⟩ := h3
    subst hfs
    subst htp
    simp only [restoreFileH, h4, h6] at h5
    cases hr2 : fsRename fsx
        (pathJoin (trashDirOf cfg) (basename vp ++ "." ++ sanitizeTimestamp ts)) rp with
    | none => rw [hr2] at h5; exact absurd h5 (by simp)
    | some fsy =>
      rw [hr2] at h5
      simp only [Except.ok.injEq, Prod.mk.injEq] at h5
      obtain ⟨hfs2, -⟩ := h5
      subst hfs2
      rw [fsRename_read _ _ _ _ hr2, fsRename_read _ _ _ _ hr]
      exact h2

/-- Claim C6 scenario: the allowed root holds the trash directory and
one text file. -/
def fsC6 : FsTree :=
  .dir true [("sandbox", .dir true
    [(".trash", .dir true []),
     ("a.txt", .file (.text "hi"))])]

/-- State after moving /sandbox/a.txt to the trash with timestamp
T1:2.3Z. -/
def fsC6a : FsTree :=
  .dir true [("sandbox", .dir true
    [(".trash", .dir true [("a.txt.T1-2-3Z", .file (.text "hi"))])])]

/-- State after restoring the trash entry (the restore target resolves
against the server working directory /sandbox). -/
def fsC6b : FsTree :=
  .dir true [("sandbox", .dir true
    [(".trash", .dir true []),
     ("a.txt.T1-2-3Z", .file (.text "hi"))])]

/-- Witness for claim C6: the round trip runs end to end on the
concrete scenario and every hypothesis of the theorem holds there by
computation. -/
theorem trash_restore_roundtrip_witness :
    moveToTrashH cfgSandbox "T1:2.3Z" fsC6 "/sandbox/a.txt" =
      .ok (fsC6a, "/sandbox/.trash/a.txt.T1-2-3Z") ∧
    restoreFileH cfgSandbox fsC6a "a.txt.T1-2-3Z" =
      .ok (fsC6b, "/sandbox/a.txt.T1-2-3Z") ∧
    fsRead "/sandbox/a.txt.T1-2-3Z" fsC6b = some (.text "hi") :=
  ⟨rfl, rfl,
    trash_restore_roundtrip cfgSandbox "T1:2.3Z" fsC6 fsC6a fsC6b "/sandbox/a.txt"
      "/sandbox/a.txt" "/sandbox/.trash/a.txt.T1-2-3Z" "/sandbox/a.txt.T1-2-3Z"
      (.text "hi") rfl rfl rfl rfl rfl rfl⟩

/-! ### Claim C8: trash and backup naming convention -/

/-- The global regex replacement the source performs equals the
character recursion written from the words of the spec. -/
theorem specSan_eq_map (l : List Char) :
    l.map (fun c => if c = ':' ∨ c = '.' then '-' else c) = specTimestampSan l := by
  induction l with
  | nil => rfl
  | cons c cs ih =>
    simp only [List.map_cons, specTimestampSan, ih]
    congr 1
    by_cases h1 : c = ':'
    · simp [h1]
    · by_cases h2 : c = '.' <;> simp [h1, h2]

/-- String form of specSan_eq_map. -/
theorem sanitizeTimestamp_eq_spec (ts : String) :
    sanitizeTimestamp ts = String.mk (specTimestampSan ts.data) := by
  unfold sanitizeTimestamp
  rw [specSan_eq_map]

/-- Claim C8: whenever move_to_trash or backup_file succeeds, the name
it created is exactly the one prescribed by the convention: the source
basename, a dot, the timestamp with colons and dots turned to dashes,
and for backups the additional .backup suffix, placed in the trash
directory respectively in the validated destination directory. -/
theorem trash_backup_naming :
    (∀ cfg ts fs p fs1 tp, moveToTrashH cfg ts fs p = .ok (fs1, tp) →
      ∃ vp, validatePath cfg fs p = .ok vp ∧
        tp = pathJoin (trashDirOf cfg)
          (basename vp ++ "." ++ String.mk (specTimestampSan ts.data))) ∧
    (∀ cfg ts fs s dd fs1 bp, backupFileH cfg ts fs s dd = .ok (fs1, bp) →
      ∃ vs vd, validatePath cfg fs s = .ok vs ∧ validatePath cfg fs dd = .ok vd ∧
        bp = pathJoin vd
          (basename vs ++ "." ++ String.mk (specTimestampSan ts.data) ++ ".backup")) := by
  constructor
  · intro cfg ts fs p fs1 tp h
    cases hv : validatePath cfg fs p with
    | error e =>
      simp only [moveToTrashH, hv] at h
      exact absurd h (by simp)
    | ok vp =>
      refine ⟨vp, rfl, ?_⟩
      simp only [moveToTrashH, hv] at h
      cases hr : fsRename fs vp
          (pathJoin (trashDirOf cfg) (basename vp ++ "." ++ sanitizeTimestamp ts)) with
      | none => rw [hr] at h; exact absurd h (by simp)
      | some fsx =>
        rw [hr] at h
        simp only [Except.ok.injEq, Prod.mk.injEq] at h
        obtain ⟨-, htp⟩ := h
        rw [← htp, sanitizeTimestamp_eq_spec]
  · intro cfg ts fs s dd fs1 bp h
    cases hv : validatePath cfg fs s with
    | error e =>
      simp only [backupFileH, hv] at h
      exact absurd h (by simp)
    | ok vs =>
      cases hv2 : validatePath cfg fs dd with
      | error e =>
        simp only [backupFileH, hv, hv2] at h
        exact absurd h (by simp)
      | ok vd =>
        refine ⟨vs, vd, rfl, rfl, ?_⟩
        simp only [backupFileH, hv, hv2] at h
        cases hr : fsCopy fs vs
            (pathJoin vd (basename vs ++ "." ++ sanitizeTimestamp ts ++ ".backup")) with
        | none => rw [hr] at h; exact absurd h (by simp)
        | some fsx =>
          rw [hr] at h
          simp only [Except.ok.injEq, Prod.mk.injEq] at h
          obtain ⟨-, hbp⟩ := h
          rw [← hbp, sanitizeTimestamp_eq_spec]

/-- Claim C8 scenario: one file to trash or back up, one backup
destination directory. -/
def fsC8 : FsTree :=
  .dir true [("sandbox", .dir true
    [(".trash", .dir true []),
     ("b.txt", .file (.text "z")),
     ("bdir", .dir true [])])]

/-- Witness for claim C8: both halves of the naming theorem apply to a
concrete successful trash move and a concrete successful backup. -/
theorem trash_backup_naming_witness :
    (∃ fs1 tp, moveToTrashH cfgSandbox "T9:8.7Z" fsC8 "/sandbox/b.txt" = .ok (fs1, tp) ∧
      ∃ vp, validatePath cfgSandbox fsC8 "/sandbox/b.txt" = .ok vp ∧
        tp = pathJoin (trashDirOf cfgSandbox)
          (basename vp ++ "." ++ String.mk (specTimestampSan "T9:8.7Z".data))) ∧
    (∃ fs1 bp, backupFileH cfgSandbox "T9:8.7Z" fsC8 "/sandbox/b.txt" "/sandbox/bdir" =
        .ok (fs1, bp) ∧
      ∃ vs vd, validatePath cfgSandbox fsC8 "/sandbox/b.txt" = .ok vs ∧
        validatePath cfgSandbox fsC8 "/sandbox/bdir" = .ok vd ∧
        bp = pathJoin vd
          (basename vs ++ "." ++ String.mk (specTimestampSan "T9:8.7Z".data) ++ ".backup")) :=
  ⟨⟨_, _, rfl, trash_backup_naming.1 _ _ _ _ _ _ rfl⟩,
   ⟨_, _, rfl, trash_backup_naming.2 _ _ _ _ _ _ _ rfl⟩⟩

/-! ### Claim C7: the empty-trash confirmation gate -/

/-- A name that a directory listing can report: non-empty, not a dot
segment, and free of separators. -/
def cleanSeg (n : String) : Prop :=
  n ≠ "" ∧ n ≠ "." ∧ n ≠ ".." ∧ '/' ∉ n.data

instance cleanSegDecidable : DecidablePred cleanSeg := fun n => by
  unfold cleanSeg; infer_instance

/-- Splitting never yields the empty list. -/
theorem splitSlash_ne_nil (l : List Char) : splitSlash l ≠ [] := by
  cases l with
  | nil => simp [splitSlash]
  | cons c cs =>
    by_cases h : c = '/'
    · simp [splitSlash, h]
    · simp only [splitSlash, if_neg h]
      cases splitSlash cs <;> simp

/-- Splitting a concatenation at an explicit separator splits both
sides. -/
theorem splitSlash_append (xs ys : List Char) :
    splitSlash (xs ++ '/' :: ys) = splitSlash xs ++ splitSlash ys := by
  induction xs with
  | nil => simp [splitSlash]
  | cons c cs ih =>
    by_cases h : c = '/'
    · simp [splitSlash, h, ih]
    · simp only [List.cons_append, splitSlash, if_neg h]
      simp only [List.append_eq]
      rw [ih]
      cases hs : splitSlash cs with
      | nil => exact absurd hs (splitSlash_ne_nil cs)
      | cons s rest => simp

/-- Appending strings concatenates their character lists. -/
theorem strData_append (a b : String) : (a ++ b).data = a.data ++ b.data := by
  cases a; cases b; rfl

/-- Segment splitting distributes over joining with a separator. -/
theorem splitSegs_append (a b : String) :
    splitSegs (a ++ "/" ++ b) = splitSegs a ++ splitSegs b := by
  unfold splitSegs
  rw [strData_append, strData_append]
  have hsl : ("/" : String).data = ['/'] := rfl
  rw [hsl, List.append_assoc, List.singleton_append, splitSlash_append,
    List.filter_append, List.map_append]

/-- A separator-free character list is one whole segment. -/
theorem splitSlash_noSlash (l : List Char) (h : '/' ∉ l) : splitSlash l = [l] := by
  induction l with
  | nil => rfl
  | cons c cs ih =>
    simp only [List.mem_cons, not_or] at h
    have hc : c ≠ '/' := fun hcc => h.1 hcc.symm
    simp [splitSlash, hc, ih h.2]

/-- A clean name splits to itself as a single segment. -/
theorem splitSegs_single (n : String) (h : cleanSeg n) : splitSegs n = [n] := by
  obtain ⟨h0, -, -, h3⟩ := h
  unfold splitSegs
  rw [splitSlash_noSlash n.data h3]
  have hne : n.data ≠ [] := by
    intro hd
    exact h0 (by cases n; simp at hd; simp [hd])
  simp [hne]

/-- Clean segments pass the normalization stack untouched. -/
theorem normStack_clean (l : List String) :
    ∀ acc, (∀ s ∈ l, cleanSeg s) → normStack acc l = l.reverse ++ acc := by
  induction l with
  | nil => intro acc h; rfl
  | cons s rest ih =>
    intro acc h
    have hs := h s (by simp)
    obtain ⟨h0, h1, h2, -⟩ := hs
    have : ¬(s = "" ∨ s = ".") := by simp [h0, h1]
    simp only [normStack, if_neg this, if_neg h2]
    rw [ih (s :: acc) (fun x hx => h x (by simp [hx]))]
    simp

/-- Normalization fixes a list of clean segments. -/
theorem normalizeSegs_clean (l : List String) (h : ∀ s ∈ l, cleanSeg s) :
    normalizeSegs l = l := by
  unfold normalizeSegs
  rw [normStack_clean l [] h]
  simp

/-- Appending one clean segment commutes with normalization. -/
theorem normStack_append_one (n : String) (hn : cleanSeg n) (l : List String) :
    ∀ acc, normStack acc (l ++ [n]) = n :: normStack acc l := by
  induction l with
  | nil =>
    intro acc
    obtain ⟨h0, h1, h2, -⟩ := hn
    have : ¬(n = "" ∨ n = ".") := by simp [h0, h1]
    simp [normStack, this, h2]
  | cons s rest ih =>
    intro acc
    by_cases hs : s = "" ∨ s = "."
    · simp [normStack, hs, ih]
    · by_cases hss : s = ".."
      · simp [normStack, hs, hss, ih]
      · simp [normStack, hs, hss, ih]

/-- Segment-list form of appending one clean segment. -/
theorem normalizeSegs_append_one (l : List String) (n : String) (hn : cleanSeg n) :
    normalizeSegs (l ++ [n]) = normalizeSegs l ++ [n] := by
  unfold normalizeSegs
  rw [normStack_append_one n hn l []]
  simp

/-- Character lists of clean segments joined with separators split back
apart. -/
theorem strIntercalate_data (segs : List String) :
    segs ≠ [] → (∀ s ∈ segs, cleanSeg s) →
    splitSlash (strIntercalate "/" segs).data = segs.map String.data := by
  induction segs with
  | nil => intro hne; exact absurd rfl hne
  | cons s rest ih =>
    intro _ h
    cases rest with
    | nil =>
      show splitSlash s.data = [s.data]
      exact splitSlash_noSlash s.data (h s (by simp)).2.2.2
    | cons m rest2 =>
      show splitSlash (s ++ "/" ++ strIntercalate "/" (m :: rest2)).data = _
      rw [strData_append, strData_append]
      have hsl : ("/" : String).data = ['/'] := rfl
      rw [hsl, List.append_assoc, List.singleton_append, splitSlash_append,
        splitSlash_noSlash s.data (h s (by simp)).2.2.2,
        ih (by simp) (fun x hx => h x (by simp [hx]))]
      rfl

/-- Rebuilding clean segments and splitting again is the identity. -/
theorem splitSegs_pathOfSegs (segs : List String) (h : ∀ s ∈ segs, cleanSeg s) :
    splitSegs (pathOfSegs segs) = segs := by
  cases segs with
  | nil => rfl
  | cons s rest =>
    unfold splitSegs pathOfSegs
    have hd : ("/" ++ strIntercalate "/" (s :: rest)).data =
        '/' :: (strIntercalate "/" (s :: rest)).data := by
      rw [strData_append]; rfl
    have h2 : splitSlash ('/' :: (strIntercalate "/" (s :: rest)).data) =
        [] :: splitSlash (strIntercalate "/" (s :: rest)).data := by
      simp [splitSlash]
    rw [hd, h2, strIntercalate_data (s :: rest) (by simp) h]
    have hstep : List.filter (fun x => decide (x ≠ []))
        (([] : List Char) :: List.map String.data (s :: rest)) =
        List.filter (fun x => decide (x ≠ [])) (List.map String.data (s :: rest)) := rfl
    rw [hstep]
    have hfil : List.filter (fun x => decide (x ≠ [])) (List.map String.data (s :: rest)) =
        List.map String.data (s :: rest) := by
      rw [List.filter_eq_self]
      intro x hx
      simp only [List.mem_map] at hx
      obtain ⟨y, hy, rfl⟩ := hx
      have h0 := (h y hy).1
      simp only [ne_eq, decide_eq_true_eq]
      intro hxe
      apply h0
      cases y
      simp only at hxe
      simp [hxe]
    rw [hfil, List.map_map]
    have hid : (String.mk ∘ String.data) = id := by
      funext x; cases x; rfl
    rw [hid, List.map_id]

/-- Joining a clean name under a clean normalized directory path appends
exactly one segment. -/
theorem splitSegs_pathJoin (t n : String)
    (ht : ∀ s ∈ splitSegs t, cleanSeg s) (hn : cleanSeg n) :
    splitSegs (pathJoin t n) = splitSegs t ++ [n] := by
  unfold pathJoin normalizeAbs
  rw [splitSegs_append, splitSegs_single n hn, normalizeSegs_append_one _ _ hn,
    normalizeSegs_clean _ ht, splitSegs_pathOfSegs]
  intro x hx
  rcases List.mem_append.mp hx with h1 | h1
  · exact ht x h1
  · simp only [List.mem_singleton] at h1
    subst h1
    exact hn

/-- Effect of removing one direct child on a directory object. -/
def pruneChild (n : String) : FsTree → FsTree
  | .dir r cs => .dir r (dropChild cs n)
  | t => t

/-- Looking up a name in a child map transformed at that name. -/
theorem lookup_mapChild (cs : List (String × FsTree)) (n : String) (f : FsTree → FsTree) :
    lookupChild (mapChild cs n f) n = (lookupChild cs n).map f := by
  induction cs with
  | nil => rfl
  | cons e rest ih =>
    by_cases h : e.1 = n
    · simp [mapChild, lookupChild, h]
    · simp only [mapChild] at ih
      simp [mapChild, lookupChild, h, ih]

/-- Removing the child n below path p prunes exactly that child from
the object read at p. -/
theorem treeGet_remove_child (p : List String) (n : String) :
    ∀ t : FsTree, treeGet p (treeRemove (p ++ [n]) t) = (treeGet p t).map (pruneChild n) := by
  induction p with
  | nil =>
    intro t
    cases t <;> rfl
  | cons q p2 ih =>
    intro t
    cases t with
    | file d => cases p2 <;> rfl
    | symlink s => cases p2 <;> rfl
    | dir r cs =>
      cases p2 with
      | nil =>
        show treeGet [q] (.dir r (mapChild cs q (treeRemove [n]))) = _
        simp only [treeGet, lookup_mapChild]
        cases hl : lookupChild cs q with
        | none => rfl
        | some c =>
          simp only [Option.map_some]
          cases c <;> rfl
      | cons m rest2 =>
        show treeGet (q :: m :: rest2)
            (.dir r (mapChild cs q (treeRemove ((m :: rest2) ++ [n])))) = _
        simp only [treeGet, lookup_mapChild]
        cases hl : lookupChild cs q with
        | none => rfl
        | some c =>
          simp only [Option.map_some]
          exact ih c

/-- Folding the removal of a set of direct children over the tree
prunes them all from the directory read at p. -/
theorem treeGet_fold_remove (names : List String) :
    ∀ (t : FsTree) (psegs : List String) (r : Bool) (cs : List (String × FsTree)),
    treeGet psegs t = some (.dir r cs) →
    treeGet psegs (names.foldl (fun f n => treeRemove (psegs ++ [n]) f) t) =
      some (.dir r (names.foldl dropChild cs)) := by
  induction names with
  | nil => intro t psegs r cs h; exact h
  | cons n rest ih =>
    intro t psegs r cs h
    have h1 : treeGet psegs (treeRemove (psegs ++ [n]) t) = some (.dir r (dropChild cs n)) := by
      rw [treeGet_remove_child psegs n t, h]
      rfl
    exact ih (treeRemove (psegs ++ [n]) t) psegs r (dropChild cs n) h1

/-- Dropping every name a child map holds empties it. -/
theorem fold_dropChild_all (names : List String) :
    ∀ cs : List (String × FsTree), (∀ e ∈ cs, e.1 ∈ names) →
    names.foldl dropChild cs = [] := by
  induction names with
  | nil =>
    intro cs h
    cases cs with
    | nil => rfl
    | cons e rest => exact absurd (h e (by simp)) (by simp)
  | cons n rest ih =>
    intro cs h
    show rest.foldl dropChild (dropChild cs n) = []
    apply ih
    intro e he
    unfold dropChild at he
    rw [List.mem_filter] at he
    obtain ⟨hmem, hne⟩ := he
    simp only [ne_eq, decide_eq_true_eq] at hne
    have := h e hmem
    simp only [List.mem_cons] at this
    rcases this with h1 | h1
    · exact absurd h1 hne
    · exact h1

/-- Claim C7: with a falsy confirm flag (absent or false) empty_trash
returns the confirmation prompt and the filesystem is untouched; with
confirm true it succeeds and the trash directory is left with zero
entries. The second half assumes the trash directory exists as a
readable directory and that its path and entry names are clean (true of
any state the server itself created). -/
theorem empty_trash_gate :
    (∀ (cfg : Config) (fs : FsTree) (c : Option Bool), c.getD false = false →
      emptyTrashH cfg fs c =
        .ok (fs, "Please confirm emptying trash by setting confirm: true")) ∧
    (∀ (cfg : Config) (fs : FsTree) (cs : List (String × FsTree)),
      treeGet (splitSegs (trashDirOf cfg)) fs = some (.dir true cs) →
      (∀ s ∈ splitSegs (trashDirOf cfg), cleanSeg s) →
      (∀ e ∈ cs, cleanSeg e.1) →
      ∃ fs1, emptyTrashH cfg fs (some true) =
          .ok (fs1, "Successfully emptied trash directory") ∧
        treeGet (splitSegs (trashDirOf cfg)) fs1 = some (.dir true [])) := by
  constructor
  · intro cfg fs c hc
    unfold emptyTrashH
    simp [hc]
  · intro cfg fs cs hget hts hcs
    have hrd : readdirNames fs (trashDirOf cfg) = some (cs.map (fun e => e.1)) := by
      unfold readdirNames
      rw [hget]
    refine ⟨(cs.map (fun e => e.1)).foldl
        (fun f entry => treeRemove (splitSegs (pathJoin (trashDirOf cfg) entry)) f) fs, ?_, ?_⟩
    · unfold emptyTrashH
      rw [if_neg (by simp : ¬((some true).getD false = false)), hrd]
    · have hfold : (cs.map (fun e => e.1)).foldl
          (fun f entry => treeRemove (splitSegs (pathJoin (trashDirOf cfg) entry)) f) fs =
          (cs.map (fun e => e.1)).foldl
          (fun f entry => treeRemove (splitSegs (trashDirOf cfg) ++ [entry]) f) fs := by
        apply List.foldl_ext
        intro a b hb
        simp only [List.mem_map] at hb
        obtain ⟨e, he, rfl⟩ := hb
        rw [splitSegs_pathJoin _ _ hts (hcs e he)]
      rw [hfold, treeGet_fold_remove _ fs _ true cs hget, fold_dropChild_all]
      intro e he
      simp only [List.mem_map]
      exact ⟨e, he, rfl⟩

/-- Claim C7 scenario: a trash directory holding two entries. -/
def fsC7 : FsTree :=
  .dir true [("sandbox", .dir true
    [(".trash", .dir true
      [("x.1", .file (.text "a")),
       ("y.2", .file (.text "b"))])])]

set_option maxHeartbeats 2000000 in
/-- Witness for claim C7: both halves of the gate theorem apply to the
concrete trash state, with every hypothesis computed. -/
theorem empty_trash_gate_witness :
    emptyTrashH cfgSandbox fsC7 none =
      .ok (fsC7, "Please confirm emptying trash by setting confirm: true") ∧
    ∃ fs1, emptyTrashH cfgSandbox fsC7 (some true) =
        .ok (fs1, "Successfully emptied trash directory") ∧
      treeGet (splitSegs (trashDirOf cfgSandbox)) fs1 = some (.dir true []) :=
  ⟨empty_trash_gate.1 cfgSandbox fsC7 none rfl,
   empty_trash_gate.2 cfgSandbox fsC7 _ rfl (by decide) (by decide)⟩

/-! ### Claim C10: search results and error skipping -/

/-- Every path the recursive search returns passed validatePath. -/
theorem searchF_sound (cfg : Config) (fs : FsTree) (pattern : String) :
    ∀ (fuel : Nat) (task : STask) (rs : List String),
      searchF cfg fs pattern fuel task = some rs →
      ∀ r ∈ rs, ∃ v, validatePath cfg fs r = .ok v := by
  intro fuel
  induction fuel with
  | zero =>
    intro task rs h
    rw [show searchF cfg fs pattern 0 task = none from rfl] at h
    exact Option.noConfusion h
  | succ fuel ih =>
    intro task rs h
    cases task with
    | visit current =>
      simp only [searchF] at h
      cases hrd : readdirT fs current with
      | none => rw [hrd] at h; exact absurd h (by simp)
      | some entries =>
        rw [hrd] at h
        exact ih (.ents current entries) rs h
    | ents current entries =>
      cases entries with
      | nil =>
        simp only [searchF, Option.some.injEq] at h
        subst h
        intro r hr
        simp at hr
      | cons e rest =>
        obtain ⟨name, isDir⟩ := e
        simp only [searchF] at h
        cases hrest : searchF cfg fs pattern fuel (.ents current rest) with
        | none => rw [hrest] at h; exact absurd h (by simp)
        | some rs2 =>
          rw [hrest] at h
          simp only [Option.map_some', Option.some.injEq] at h
          subst h
          intro r hr
          rw [List.mem_append] at hr
          rcases hr with hr | hr
          · cases hv : validatePath cfg fs (pathJoin current name) with
            | error e => rw [hv] at hr; simp at hr
            | ok v =>
              rw [hv] at hr
              rw [List.mem_append] at hr
              rcases hr with hr | hr
              · refine ⟨v, ?_⟩
                by_cases hm : strIncludes (strLower name) (strLower pattern)
                · rw [if_pos hm] at hr
                  simp only [List.mem_singleton] at hr
                  subst hr
                  exact hv
                · rw [if_neg hm] at hr
                  simp at hr
              · by_cases hd : isDir = true
                · rw [if_pos hd] at hr
                  cases hsub : searchF cfg fs pattern fuel (.visit (pathJoin current name)) with
                  | none => rw [hsub] at hr; simp at hr
                  | some rs3 =>
                    rw [hsub] at hr
                    exact ih (.visit (pathJoin current name)) rs3 hsub r hr
                · rw [if_neg hd] at hr
                  simp at hr
          · exact ih (.ents current rest) rs2 hrest r hr

/-- Claim C10 (amended): every path search_files returns passed
validatePath; entries whose validation throws are skipped without
aborting the remaining entries, and a thrown recursive descent does not
abort the search either, though the entry itself stays in the result
when its name matched (see the counterexample for the unamended form). -/
theorem search_files_only_validated (cfg : Config) (fs : FsTree)
    (p pattern : String) (fuel : Nat) (rs : List String)
    (h : searchFilesH cfg fs p pattern fuel = .ok rs) :
    ∀ r ∈ rs, ∃ v, validatePath cfg fs r = .ok v := by
  unfold searchFilesH at h
  cases hv : validatePath cfg fs p with
  | error e =>
    simp only [hv] at h
    exact Except.noConfusion h
  | ok vp =>
    simp only [hv] at h
    cases hs : searchF cfg fs pattern fuel (.visit vp) with
    | none => rw [hs] at h; exact absurd h (by simp)
    | some results =>
      rw [hs] at h
      simp only [Except.ok.injEq] at h
      subst h
      exact searchF_sound cfg fs pattern fuel (.visit vp) results hs

/-- Claim C10 scenario: the readable root holds a matching directory
that itself cannot be read (its descent throws) and a matching file
listed after it. -/
def fsC10 : FsTree :=
  .dir true [("sandbox", .dir true
    [("foo", .dir false [("z", .file (.text "q"))]),
     ("boo.txt", .file (.text "w"))])]

/-- Counterexample for claim C10 as stated: the directory entry
/sandbox/foo matches the pattern and its recursive descent throws (its
readdir fails), yet it does appear in the result, which also shows the
failure did not abort the search of the remaining entries (the later
sibling is still found). -/
theorem search_descent_throw_entry_in_result :
    searchFilesH cfgSandbox fsC10 "/sandbox" "oo" 10 =
      .ok ["/sandbox/foo", "/sandbox/boo.txt"] ∧
    readdirT fsC10 "/sandbox/foo" = none :=
  ⟨rfl, rfl⟩

/-- Witness for claim C10: the amended theorem applied to the concrete
search run, instantiated at the first returned path, which therefore
validates. -/
theorem search_files_only_validated_witness :
    ∃ v, validatePath cfgSandbox fsC10 "/sandbox/foo" = Except.ok v :=
  search_files_only_validated cfgSandbox fsC10 "/sandbox" "oo" 10
    ["/sandbox/foo", "/sandbox/boo.txt"] rfl "/sandbox/foo" (by simp)

/-! ### Claim C1 (amended): extraction validates no entries and writes
under the destination -/

/-- The normalization stack processes a concatenation in two passes. -/
theorem normStack_append (l1 l2 : List String) :
    ∀ acc, normStack acc (l1 ++ l2) = normStack (normStack acc l1) l2 := by
  induction l1 with
  | nil => intro acc; rfl
  | cons s rest ih =>
    intro acc
    by_cases h1 : s = "" ∨ s = "."
    · simp [normStack, h1, ih]
    · by_cases h2 : s = ".."
      · simp [normStack, h1, h2, ih]
      · simp [normStack, h1, h2, ih]

/-- No part produced by separator splitting contains a separator. -/
theorem splitSlash_parts_no_slash (l : List Char) :
    ∀ s ∈ splitSlash l, '/' ∉ s := by
  induction l with
  | nil =>
    intro s hs
    simp only [splitSlash, List.mem_singleton] at hs
    subst hs
    simp
  | cons c cs ih =>
    intro s hs
    by_cases h : c = '/'
    · simp only [splitSlash, if_pos h] at hs
      rcases List.mem_cons.mp hs with h1 | h1
      · subst h1; simp
      · exact ih s h1
    · simp only [splitSlash, if_neg h] at hs
      cases hsp : splitSlash cs with
      | nil => exact absurd hsp (splitSlash_ne_nil cs)
      | cons t rest =>
        rw [hsp] at hs
        rcases List.mem_cons.mp hs with h1 | h1
        · subst h1
          intro hmem
          rcases List.mem_cons.mp hmem with h2 | h2
          · exact h h2.symm
          · have ht : t ∈ splitSlash cs := by
              rw [hsp]; exact List.mem_cons_self t rest
            exact ih t ht h2
        · have hsmem : s ∈ splitSlash cs := by
            rw [hsp]; exact List.mem_cons.mpr (Or.inr h1)
          exact ih s hsmem

/-- Every segment a path splits into is non-empty and separator-free. -/
theorem splitSegs_parts (p : String) :
    ∀ s ∈ splitSegs p, s ≠ "" ∧ '/' ∉ s.data := by
  intro s hs
  unfold splitSegs at hs
  simp only [List.mem_map, List.mem_filter] at hs
  obtain ⟨t, ⟨ht, hne⟩, rfl⟩ := hs
  simp only [ne_eq, decide_eq_true_eq] at hne
  refine ⟨?_, ?_⟩
  · intro h0
    apply hne
    rw [String.ext_iff] at h0
    simpa using h0
  · show '/' ∉ t
    exact splitSlash_parts_no_slash p.data t ht

/-- Everything on the normalization stack came from the stack it
started with or is a kept, non-special input segment. -/
theorem normStack_mem (l : List String) :
    ∀ acc s, s ∈ normStack acc l →
      s ∈ acc ∨ (s ∈ l ∧ s ≠ "" ∧ s ≠ "." ∧ s ≠ "..") := by
  induction l with
  | nil => intro acc s hs; exact Or.inl hs
  | cons x rest ih =>
    intro acc s hs
    by_cases h1 : x = "" ∨ x = "."
    · simp only [normStack, if_pos h1] at hs
      rcases ih acc s hs with h | ⟨hm, hp⟩
      · exact Or.inl h
      · exact Or.inr ⟨List.mem_cons.mpr (Or.inr hm), hp⟩
    · by_cases h2 : x = ".."
      · simp only [normStack, if_neg h1, if_pos h2] at hs
        rcases ih acc.tail s hs with h | ⟨hm, hp⟩
        · left
          cases acc with
          | nil => simp at h
          | cons a arest => exact List.mem_cons.mpr (Or.inr h)
        · exact Or.inr ⟨List.mem_cons.mpr (Or.inr hm), hp⟩
      · simp only [normStack, if_neg h1, if_neg h2] at hs
        push_neg at h1
        rcases ih (x :: acc) s hs with h | ⟨hm, hp⟩
        · rcases List.mem_cons.mp h with h3 | h3
          · subst h3
            exact Or.inr ⟨List.mem_cons_self .., h1.1, h1.2, h2⟩
          · exact Or.inl h3
        · exact Or.inr ⟨List.mem_cons.mpr (Or.inr hm), hp⟩

/-- Canonicalized entry names consist of clean segments only. -/
theorem canonicalEntryName_clean (nm : String) :
    ∀ s ∈ canonicalEntryName nm, cleanSeg s := by
  intro s hs
  unfold canonicalEntryName normalizeSegs at hs
  rw [List.mem_reverse] at hs
  rcases normStack_mem (splitSegs nm) [] s hs with h | ⟨hm, h0, h1, h2⟩
  · simp at h
  · obtain ⟨-, hns⟩ := splitSegs_parts nm s hm
    exact ⟨h0, h1, h2, hns⟩

/-- Normalizing after appending clean segments appends them to the
normalization of the front. -/
theorem normalizeSegs_append_clean (l1 l2 : List String)
    (h : ∀ s ∈ l2, cleanSeg s) :
    normalizeSegs (l1 ++ l2) = normalizeSegs l1 ++ l2 := by
  unfold normalizeSegs
  rw [normStack_append l1 l2 [], normStack_clean l2 (normStack [] l1) h,
    List.reverse_append, List.reverse_reverse]

/-- A list is a segment-wise initial part of itself extended. -/
theorem listIsPreS_append (l1 l2 : List String) : listIsPreS l1 (l1 ++ l2) = true := by
  induction l1 with
  | nil => rfl
  | cons a rest ih => simp [listIsPreS, ih]

/-- Claim C1 (amended): unzip_file re-validates no entry path against
the sandbox; it validates only the archive path and the destination,
and whenever it succeeds, the new state is exactly the entry-wise
extraction of the archive, whose every write target is the destination
extended segment-wise by the canonicalized entry name: a traversal
entry is not failed; the library silently relocates it under the
destination, and no write lands outside the destination. -/
theorem unzip_entries_under_destination (cfg : Config) (fs fs1 : FsTree)
    (src dst msg : String) (h : unzipFileH cfg fs src dst = .ok (fs1, msg)) :
    ∃ vs vd entries,
      validatePath cfg fs src = .ok vs ∧
      validatePath cfg fs dst = .ok vd ∧
      treeGet (splitSegs vs) fs = some (.file (.zip entries)) ∧
      fs1 = extractAllEntries vd entries fs ∧
      ∀ e ∈ entries,
        listIsPreS (normalizeSegs (splitSegs vd))
          (normalizeSegs (splitSegs vd ++ canonicalEntryName e.1)) = true := by
  unfold unzipFileH at h
  cases hv : validatePath cfg fs src with
  | error e =>
    simp only [hv] at h
    exact Except.noConfusion h
  | ok vs =>
    simp only [hv] at h
    cases hv2 : validatePath cfg fs dst with
    | error e =>
      simp only [hv2] at h
      exact Except.noConfusion h
    | ok vd =>
      simp only [hv2] at h
      cases hz : treeGet (splitSegs vs) fs with
      | none =>
        simp only [hz] at h
        exact Except.noConfusion h
      | some t =>
        cases t with
        | symlink tgt =>
          simp only [hz] at h
          exact Except.noConfusion h
        | dir r cs =>
          simp only [hz] at h
          exact Except.noConfusion h
        | file d =>
          cases d with
          | text txt =>
            simp only [hz] at h
            exact Except.noConfusion h
          | zip entries =>
            simp only [hz, Except.ok.injEq, Prod.mk.injEq] at h
            obtain ⟨hfs, -⟩ := h
            refine ⟨vs, vd, entries, rfl, rfl, hz, hfs.symm, ?_⟩
            intro e he
            rw [normalizeSegs_append_clean _ _ (canonicalEntryName_clean e.1)]
            exact listIsPreS_append _ _

/-- Witness for the amended claim C1: the theorem applied to the
concrete extraction of the traversal archive, every hypothesis
computed. -/
theorem unzip_entries_under_destination_witness :
    ∃ fs1, unzipFileH cfgSandbox fsC1 "/sandbox/a.zip" "/sandbox" =
        .ok (fs1, "Successfully extracted zip file to /sandbox") ∧
      ∃ vs vd entries,
        validatePath cfgSandbox fsC1 "/sandbox/a.zip" = .ok vs ∧
        validatePath cfgSandbox fsC1 "/sandbox" = .ok vd ∧
        treeGet (splitSegs vs) fsC1 = some (.file (.zip entries)) ∧
        fs1 = extractAllEntries vd entries fsC1 ∧
        ∀ e ∈ entries,
          listIsPreS (normalizeSegs (splitSegs vd))
            (normalizeSegs (splitSegs vd ++ canonicalEntryName e.1)) = true :=
  ⟨_, rfl, unzip_entries_under_destination cfgSandbox fsC1 _ "/sandbox/a.zip" "/sandbox"
    "Successfully extracted zip file to /sandbox" rfl⟩
